import Mathlib

/-!
# Verification of the SuperPositionNFT ERC-721 ledger

The repository (`src/contracts/erc721/src/lib.rs`) contains the thin
`SuperPositionNFT` entrypoint wrapper, which forwards into the `Erc721`
ledger module (`mod erc721`, not included in the sources).  The ledger
core is therefore modelled from the specification; the wrapper methods
(`mint`, `mint_to`, `safe_mint`, `burn`) are embedded from `lib.rs`.

Addresses and token ids are modelled as natural numbers; the zero
address is `0`.  Maps are total functions with explicit defaults, as in
the spec's reference design (absent owner = `none`, absent approval =
zero address, balance default `0`).
-/

namespace NFT

/-- The spec's error taxonomy (§7) for the ledger core.  Addresses and
token ids are plain `Nat`; the zero (burn) address is `0`. -/
inductive Error where
  | NonexistentToken
  | NotAuthorized
  | IncorrectOwner
  | InvalidReceiver
  | InvalidOperator
  | ReceiverRejected
  | ReceiverCallFailed
  deriving Repr, DecidableEq

/-- Modelled from the spec: the `TokenLedger` state (§2, §3) of the
missing `erc721` module: id→owner map, owner→balance, id→approved
address, (owner, operator)→approved flag, and the auto-increment
`NextTokenId` counter. -/
structure State where
  owners : Nat → Option Nat
  balances : Nat → Nat
  tokenApprovals : Nat → Nat
  operatorApprovals : Nat → Nat → Bool
  nextTokenId : Nat

/-- The initial ledger state: nothing minted, no approvals, counter at
its base (§9: starts at a known base, here 0). -/
def State.init : State where
  owners := fun _ => none
  balances := fun _ => 0
  tokenApprovals := fun _ => 0
  operatorApprovals := fun _ _ => false
  nextTokenId := 0

/-- Point update of a map `Nat → Option Nat`. -/
def updOwner (f : Nat → Option Nat) (i : Nat) (v : Option Nat) :
    Nat → Option Nat :=
  fun t => if t = i then v else f t

/-- Point update of a map `Nat → Nat`. -/
def updBal (f : Nat → Nat) (a : Nat) (v : Nat) : Nat → Nat :=
  fun x => if x = a then v else f x

/-- Point update of a map `Nat → Nat`. -/
def updAppr (f : Nat → Nat) (i : Nat) (v : Nat) : Nat → Nat :=
  fun t => if t = i then v else f t

/-- Point update of the operator-approval map. -/
def updOp (f : Nat → Nat → Bool) (o a : Nat) (v : Bool) :
    Nat → Nat → Bool :=
  fun x y => if x = o ∧ y = a then v else f x y

/-- Outcome of the recipient-acceptance callback of the safe-transfer
protocol (§4, §9): the destination is not contract-like (no check), or
the callback returned the magic value, or it returned a wrong value, or
the call itself failed. -/
inductive ReceiverOutcome where
  | notContract
  | accepted
  | rejected
  | callFailed
  deriving Repr, DecidableEq

namespace Erc721

/-- The post-state of a successful mint: ownership of the fresh id
assigned, the receiver's balance bumped, the counter advanced. -/
def mintState (s : State) (dst : Nat) : State :=
  { s with
      owners := updOwner s.owners s.nextTokenId (some dst)
      balances := updBal s.balances dst (s.balances dst + 1)
      nextTokenId := s.nextTokenId + 1 }

/-- Modelled from the spec: `mint(dst)` (§4.1) of the missing `erc721`
module.  Rejects the zero address with `InvalidReceiver`; otherwise
allocates `NextTokenId`, assigns ownership, bumps the balance and
advances the counter, returning the fresh id. -/
def mint (s : State) (dst : Nat) : Except Error (State × Nat) :=
  if dst = 0 then .error .InvalidReceiver
  else .ok (mintState s dst, s.nextTokenId)

/-- Modelled from the spec: `mint_to(dst)` (§4.1), identical in behavior
with `mint` but the generated id is discarded. -/
def mint_to (s : State) (dst : Nat) : Except Error State :=
  (mint s dst).map Prod.fst

/-- Modelled from the spec: `safe_mint(dst, data)` (§4.1): mint, then the
recipient-acceptance check; on rejection or call failure the whole
operation is rolled back atomically (the returned `Except` carries no
state on error, and the step function keeps the pre-state). -/
def safe_mint (s : State) (dst : Nat) (recv : ReceiverOutcome) :
    Except Error State :=
  match mint s dst with
  | .error e => .error e
  | .ok (s1, _) =>
    match recv with
    | .notContract => .ok s1
    | .accepted => .ok s1
    | .rejected => .error .ReceiverRejected
    | .callFailed => .error .ReceiverCallFailed

/-- Modelled from the spec: the shared authorization rule of burn and
transfer (§4.1): caller is the current owner, the single-token-approved
address for the id, or an approved operator of the current owner. -/
def authorized (s : State) (caller owner : Nat) (id : Nat) : Bool :=
  caller = owner || s.tokenApprovals id = caller || s.operatorApprovals owner caller

/-- The post-state of a successful burn by the current `owner` of `id`:
ownership and the single-token approval cleared, the previous owner's
balance decremented. -/
def burnState (s : State) (owner : Nat) (id : Nat) : State :=
  { s with
      owners := updOwner s.owners id none
      balances := updBal s.balances owner (s.balances owner - 1)
      tokenApprovals := updAppr s.tokenApprovals id 0 }

/-- Modelled from the spec: `burn(caller, id)` (§4.1).  Fails with
`NonexistentToken` when the id does not exist, `NotAuthorized` when the
caller fails the authorization rule; otherwise clears ownership and the
single-token approval and decrements the previous owner's balance. -/
def burn (s : State) (caller : Nat) (id : Nat) : Except Error State :=
  match s.owners id with
  | none => .error .NonexistentToken
  | some owner =>
    if authorized s caller owner id then .ok (burnState s owner id)
    else .error .NotAuthorized

/-- The post-state of a successful transfer of `id` from `from_` to
`dst`: the single-token approval cleared, ownership reassigned, the
sender's balance decremented and the receiver's incremented. -/
def transferState (s : State) (from_ dst : Nat) (id : Nat) : State :=
  { s with
      owners := updOwner s.owners id (some dst)
      balances :=
        updBal (updBal s.balances from_ (s.balances from_ - 1)) dst
          (updBal s.balances from_ (s.balances from_ - 1) dst + 1)
      tokenApprovals := updAppr s.tokenApprovals id 0 }

/-- Modelled from the spec: `transfer_from(caller, from, dst, id)`
(§4.1): the id must exist and be owned by `from`, `dst` must be nonzero,
the caller must pass the shared authorization rule; on success the
single-token approval is cleared and ownership and balances move. -/
def transfer_from (s : State) (caller from_ dst : Nat) (id : Nat) :
    Except Error State :=
  match s.owners id with
  | none => .error .NonexistentToken
  | some owner =>
    if dst = 0 then .error .InvalidReceiver
    else if owner ≠ from_ then .error .IncorrectOwner
    else if authorized s caller owner id then .ok (transferState s from_ dst id)
    else .error .NotAuthorized

/-- Modelled from the spec: `safe_transfer_from` (§4.1): `transfer_from`
plus the recipient-acceptance check with atomic rollback on failure. -/
def safe_transfer_from (s : State) (caller from_ dst : Nat) (id : Nat)
    (recv : ReceiverOutcome) : Except Error State :=
  match transfer_from s caller from_ dst id with
  | .error e => .error e
  | .ok s1 =>
    match recv with
    | .notContract => .ok s1
    | .accepted => .ok s1
    | .rejected => .error .ReceiverRejected
    | .callFailed => .error .ReceiverCallFailed

/-- Modelled from the spec: `approve(caller, approved, id)` (§4.1):
caller must be the owner or an approved operator of the owner; sets the
single-token approval (zero clears it). -/
def approve (s : State) (caller approved : Nat) (id : Nat) :
    Except Error State :=
  match s.owners id with
  | none => .error .NonexistentToken
  | some owner =>
    if caller = owner || s.operatorApprovals owner caller then
      .ok { s with tokenApprovals := updAppr s.tokenApprovals id approved }
    else .error .NotAuthorized

/-- Modelled from the spec: `set_approval_for_all(caller, operator,
approved)` (§4.1): rejects `operator == caller` with `InvalidOperator`,
otherwise records the pair. -/
def set_approval_for_all (s : State) (caller op : Nat) (appr : Bool) :
    Except Error State :=
  if op = caller then .error .InvalidOperator
  else .ok { s with operatorApprovals := updOp s.operatorApprovals caller op appr }

/-- Modelled from the spec: query `owner_of(id)` (§4.1). -/
def owner_of (s : State) (id : Nat) : Except Error Nat :=
  match s.owners id with
  | none => .error .NonexistentToken
  | some owner => .ok owner

/-- Modelled from the spec: query `balance_of(addr)` (§4.1). -/
def balance_of (s : State) (a : Nat) : Nat := s.balances a

/-- Modelled from the spec: query `get_approved(id)` (§4.1): the
approved address, or zero. -/
def get_approved (s : State) (id : Nat) : Nat := s.tokenApprovals id

/-- Modelled from the spec: query `is_approved_for_all` (§4.1). -/
def is_approved_for_all (s : State) (owner op : Nat) : Bool :=
  s.operatorApprovals owner op

end Erc721

/-- One ledger operation, with the environment's choices (caller, the
receiver-callback outcome for safe variants) as data. -/
inductive Op where
  | mint (dst : Nat)
  | safeMint (dst : Nat) (recv : ReceiverOutcome)
  | burn (caller : Nat) (id : Nat)
  | transferFrom (caller from_ dst : Nat) (id : Nat)
  | safeTransferFrom (caller from_ dst : Nat) (id : Nat) (recv : ReceiverOutcome)
  | approve (caller approved : Nat) (id : Nat)
  | setApprovalForAll (caller op : Nat) (appr : Bool)

/-- The post-state of an operation result: the new state on success,
the pre-state untouched on failure (§7: strict all-or-nothing). -/
def commit (r : Except Error State) (s : State) : State :=
  match r with
  | .ok s1 => s1
  | .error _ => s

/-- The state after one operation. -/
def applyOp (o : Op) (s : State) : State :=
  match o with
  | .mint dst => commit ((Erc721.mint s dst).map Prod.fst) s
  | .safeMint dst recv => commit (Erc721.safe_mint s dst recv) s
  | .burn caller id => commit (Erc721.burn s caller id) s
  | .transferFrom c f t id => commit (Erc721.transfer_from s c f t id) s
  | .safeTransferFrom c f t id recv => commit (Erc721.safe_transfer_from s c f t id recv) s
  | .approve c a id => commit (Erc721.approve s c a id) s
  | .setApprovalForAll c o appr => commit (Erc721.set_approval_for_all s c o appr) s

/-- The state after a sequence of operations. -/
def applyOps (ops : List Op) (s : State) : State :=
  match ops with
  | [] => s
  | o :: rest => applyOps rest (applyOp o s)

/-- `ReachFrom s t`: `t` results from `s` by some sequence of ledger
operations. -/
def ReachFrom (s t : State) : Prop := ∃ ops : List Op, applyOps ops s = t

/-- A state reachable from the initial ledger state. -/
def Reach (s : State) : Prop := ReachFrom State.init s

namespace SuperPositionNFT

/-- Embedded from `src/contracts/erc721/src/lib.rs` lines 66–70:
`pub fn mint(&mut self)` reads `msg::sender()` and forwards to
`self.erc721.mint(minter)`, discarding the returned id.  The ambient
`msg::sender()` of the call is passed as `sender`. -/
def mint (s : State) (sender : Nat) : Except Error State :=
  (Erc721.mint s sender).map Prod.fst

/-- Embedded from `lib.rs` lines 73–76: `pub fn mint_to(&mut self, to)`
forwards to `self.erc721.mint(to)` with no check on the caller; the
ambient `msg::sender()` is passed as `sender` (and, as in the source,
never read). -/
def mint_to (s : State) (sender dst : Nat) : Except Error State :=
  (Erc721.mint s dst).map Prod.fst

/-- Embedded from `lib.rs` lines 79–82: `pub fn safe_mint(&mut self, to)`
forwards to `Erc721::safe_mint(self, to, Vec::new())`. -/
def safe_mint (s : State) (sender dst : Nat) (recv : ReceiverOutcome) :
    Except Error State :=
  Erc721.safe_mint s dst recv

/-- Embedded from `lib.rs` lines 85–89: `pub fn burn(&mut self, token_id)`
forwards to `self.erc721.burn(msg::sender(), token_id)`. -/
def burn (s : State) (sender : Nat) (id : Nat) : Except Error State :=
  Erc721.burn s sender id

end SuperPositionNFT

/-! ## The ledger invariant (spec §3, invariants 1–2) -/

/-- The set of tokens currently owned by `a` (all existing ids lie below
`nextTokenId`, see `Inv`). -/
def fiber (s : State) (a : Nat) : Finset Nat :=
  (Finset.range s.nextTokenId).filter (fun t => s.owners t = some a)

/-- The set of currently-existing token ids. -/
def existingTokens (s : State) : Finset Nat :=
  (Finset.range s.nextTokenId).filter (fun t => (s.owners t).isSome)

/-- The inductive ledger invariant: ids at or above the counter do not
exist, and every balance equals the number of tokens owned. -/
def Inv (s : State) : Prop :=
  (∀ t, s.nextTokenId ≤ t → s.owners t = none) ∧
  (∀ a, s.balances a = (fiber s a).card)

/-- A concrete ledger state with one token (id 0) owned by address 5,
used to instantiate the theorems below at concrete inputs. -/
def sEx : State where
  owners := fun t => if t = 0 then some 5 else none
  balances := fun a => if a = 5 then 1 else 0
  tokenApprovals := fun _ => 0
  operatorApprovals := fun _ _ => false
  nextTokenId := 1

theorem mem_fiber {s : State} {a : Nat} {t : Nat} :
    t ∈ fiber s a ↔ t < s.nextTokenId ∧ s.owners t = some a := by
  simp [fiber, Finset.mem_filter, Finset.mem_range]

theorem mem_existingTokens {s : State} {t : Nat} :
    t ∈ existingTokens s ↔ t < s.nextTokenId ∧ (s.owners t).isSome := by
  simp [existingTokens, Finset.mem_filter, Finset.mem_range]

theorem owner_lt_next {s : State} (hinv : Inv s) {t : Nat} {a : Nat}
    (h : s.owners t = some a) : t < s.nextTokenId := by
  by_contra hge
  have := hinv.1 t (Nat.le_of_not_lt hge)
  rw [this] at h
  exact Option.noConfusion h

theorem inv_init : Inv State.init := by
  constructor
  · intro t _
    rfl
  · intro a
    simp [State.init, fiber]

theorem fiber_mintState (s : State) (dst a : Nat) :
    fiber (Erc721.mintState s dst) a =
      if dst = a then insert s.nextTokenId (fiber s a) else fiber s a := by
  have hnext : (Erc721.mintState s dst).nextTokenId = s.nextTokenId + 1 := rfl
  have hown : ∀ t, (Erc721.mintState s dst).owners t =
      (if t = s.nextTokenId then some dst else s.owners t) := fun _ => rfl
  by_cases hda : dst = a
  · subst hda
    rw [if_pos rfl]
    ext t
    simp only [mem_fiber, hnext, hown, Finset.mem_insert]
    constructor
    · rintro ⟨hlt, hw⟩
      by_cases htn : t = s.nextTokenId
      · exact Or.inl htn
      · right
        rw [if_neg htn] at hw
        exact ⟨by omega, hw⟩
    · rintro (htn | hmem)
      · subst htn
        exact ⟨by omega, by simp⟩
      · obtain ⟨hlt, hw⟩ := hmem
        have htn : t ≠ s.nextTokenId := by omega
        exact ⟨by omega, by rw [if_neg htn]; exact hw⟩
  · rw [if_neg hda]
    ext t
    simp only [mem_fiber, hnext, hown]
    constructor
    · rintro ⟨hlt, hw⟩
      by_cases htn : t = s.nextTokenId
      · rw [if_pos htn] at hw
        exact absurd (Option.some.inj hw) hda
      · rw [if_neg htn] at hw
        exact ⟨by omega, hw⟩
    · rintro ⟨hlt, hw⟩
      have htn : t ≠ s.nextTokenId := by omega
      exact ⟨by omega, by rw [if_neg htn]; exact hw⟩

theorem inv_mintState {s : State} (hinv : Inv s) (dst : Nat) :
    Inv (Erc721.mintState s dst) := by
  obtain ⟨hb, hbal⟩ := hinv
  constructor
  · intro t ht
    have hnext : (Erc721.mintState s dst).nextTokenId = s.nextTokenId + 1 := rfl
    rw [hnext] at ht
    have htn : t ≠ s.nextTokenId := by omega
    show (if t = s.nextTokenId then some dst else s.owners t) = none
    rw [if_neg htn]
    exact hb t (by omega)
  · intro a
    rw [fiber_mintState]
    by_cases hda : dst = a
    · subst hda
      rw [if_pos rfl, Finset.card_insert_of_not_mem]
      · show updBal s.balances dst (s.balances dst + 1) dst = _
        simp [updBal, hbal dst]
      · intro hmem
        exact absurd (mem_fiber.mp hmem).1 (by omega)
    · rw [if_neg hda]
      show updBal s.balances dst (s.balances dst + 1) a = _
      simp only [updBal]
      rw [if_neg (fun h => hda h.symm)]
      exact hbal a

theorem fiber_burnState (s : State) (owner a id : Nat) :
    fiber (Erc721.burnState s owner id) a = (fiber s a).erase id := by
  have hn : (Erc721.burnState s owner id).nextTokenId = s.nextTokenId := rfl
  have hown : ∀ u, (Erc721.burnState s owner id).owners u =
      (if u = id then none else s.owners u) := fun _ => rfl
  ext t
  simp only [mem_fiber, hn, hown, Finset.mem_erase]
  by_cases ht : t = id
  · simp [ht]
  · simp only [ht, if_false, if_neg ht]
    constructor
    · rintro ⟨h1, h2⟩
      exact ⟨ht, h1, h2⟩
    · rintro ⟨_, h1, h2⟩
      exact ⟨h1, h2⟩

theorem not_mem_fiber_of_other {s : State} {id owner a : Nat}
    (hown : s.owners id = some owner) (hao : a ≠ owner) : id ∉ fiber s a := by
  intro hmem
  have h2 := (mem_fiber.mp hmem).2
  rw [hown] at h2
  exact hao (Option.some.inj h2).symm

theorem inv_burnState {s : State} (hinv : Inv s) {owner id : Nat}
    (hown : s.owners id = some owner) : Inv (Erc721.burnState s owner id) := by
  have hidn : id < s.nextTokenId := owner_lt_next hinv hown
  obtain ⟨hb, hbal⟩ := hinv
  constructor
  · intro t ht
    show (if t = id then none else s.owners t) = none
    by_cases htid : t = id
    · rw [if_pos htid]
    · rw [if_neg htid]
      exact hb t ht
  · intro a
    show updBal s.balances owner (s.balances owner - 1) a = _
    rw [fiber_burnState]
    by_cases hao : a = owner
    · subst hao
      have hc := Finset.card_erase_of_mem (mem_fiber.mpr ⟨hidn, hown⟩)
      simp [updBal, hc, hbal a]
    · have hne : id ∉ fiber s a := not_mem_fiber_of_other hown hao
      simp [updBal, hao, Finset.erase_eq_of_not_mem hne, hbal a]

theorem fiber_transferState (s : State) (from_ dst a id : Nat)
    (hidn : id < s.nextTokenId) :
    fiber (Erc721.transferState s from_ dst id) a =
      if a = dst then insert id ((fiber s a).erase id) else (fiber s a).erase id := by
  have hn : (Erc721.transferState s from_ dst id).nextTokenId = s.nextTokenId := rfl
  have hown : ∀ u, (Erc721.transferState s from_ dst id).owners u =
      (if u = id then some dst else s.owners u) := fun _ => rfl
  ext t
  by_cases had : a = dst
  · subst had
    rw [if_pos rfl]
    simp only [mem_fiber, hn, hown, Finset.mem_insert, Finset.mem_erase]
    by_cases ht : t = id
    · simp [ht, hidn]
    · simp [ht]
  · rw [if_neg had]
    have had2 : dst ≠ a := fun h => had h.symm
    simp only [mem_fiber, hn, hown, Finset.mem_erase]
    by_cases ht : t = id
    · simp [ht, had2]
    · simp [ht]

theorem inv_transferState {s : State} (hinv : Inv s) {from_ id : Nat}
    (dst : Nat) (hown : s.owners id = some from_) :
    Inv (Erc721.transferState s from_ dst id) := by
  have hidn : id < s.nextTokenId := owner_lt_next hinv hown
  have hmemf : id ∈ fiber s from_ := mem_fiber.mpr ⟨hidn, hown⟩
  have hbalf : 1 ≤ s.balances from_ := by
    rw [hinv.2 from_]
    exact Finset.card_pos.mpr ⟨id, hmemf⟩
  obtain ⟨hb, hbal⟩ := hinv
  constructor
  · intro t ht
    have hn : (Erc721.transferState s from_ dst id).nextTokenId = s.nextTokenId := rfl
    rw [hn] at ht
    show (if t = id then some dst else s.owners t) = none
    have htid : t ≠ id := by omega
    rw [if_neg htid]
    exact hb t ht
  · intro a
    show updBal (updBal s.balances from_ (s.balances from_ - 1)) dst
        (updBal s.balances from_ (s.balances from_ - 1) dst + 1) a = _
    rw [fiber_transferState s from_ dst a id hidn]
    by_cases had : a = dst
    · rw [if_pos had]
      subst had
      by_cases hfa : a = from_
      · subst hfa
        rw [Finset.insert_erase hmemf, ← hbal a]
        simp [updBal]
        omega
      · have hne : id ∉ fiber s a := not_mem_fiber_of_other hown (fun h => hfa h)
        rw [Finset.erase_eq_of_not_mem hne, Finset.card_insert_of_not_mem hne, ← hbal a]
        simp [updBal, hfa]
    · rw [if_neg had]
      by_cases hfa : a = from_
      · subst hfa
        rw [Finset.card_erase_of_mem hmemf, ← hbal a]
        simp [updBal, had]
      · have hne : id ∉ fiber s a := not_mem_fiber_of_other hown (fun h => hfa h)
        rw [Finset.erase_eq_of_not_mem hne, ← hbal a]
        simp [updBal, had, hfa]


theorem inv_congr {s s' : State} (hinv : Inv s) (ho : s'.owners = s.owners)
    (hb : s'.balances = s.balances) (hn : s'.nextTokenId = s.nextTokenId) :
    Inv s' := by
  constructor
  · intro t ht
    rw [ho]
    exact hinv.1 t (by rw [hn] at ht; exact ht)
  · intro a
    unfold fiber
    rw [hb, ho, hn]
    exact hinv.2 a

theorem inv_applyOp {s : State} (hinv : Inv s) (o : Op) : Inv (applyOp o s) := by
  cases o with
  | mint dst =>
    by_cases h0 : dst = 0
    · simp only [applyOp, Erc721.mint, h0, if_pos rfl, Except.map, commit]
      exact hinv
    · simp only [applyOp, Erc721.mint, if_neg h0, Except.map, commit]
      exact inv_mintState hinv dst
  | safeMint dst recv =>
    by_cases h0 : dst = 0
    · simp only [applyOp, Erc721.safe_mint, Erc721.mint, h0, if_pos rfl, commit]
      exact hinv
    · cases recv <;>
        simp only [applyOp, Erc721.safe_mint, Erc721.mint, if_neg h0, commit] <;>
        first
          | exact inv_mintState hinv dst
          | exact hinv
  | burn caller id =>
    cases hown : s.owners id with
    | none =>
      simp only [applyOp, Erc721.burn, hown, commit]
      exact hinv
    | some owner =>
      by_cases hauth : Erc721.authorized s caller owner id
      · simp only [applyOp, Erc721.burn, hown, if_pos hauth, commit]
        exact inv_burnState hinv hown
      · simp only [applyOp, Erc721.burn, hown, if_neg hauth, commit]
        exact hinv
  | transferFrom caller from_ dst id =>
    cases hown : s.owners id with
    | none =>
      simp only [applyOp, Erc721.transfer_from, hown, commit]
      exact hinv
    | some owner =>
      by_cases h0 : dst = 0
      · simp only [applyOp, Erc721.transfer_from, hown, h0, if_pos rfl, commit]
        exact hinv
      · by_cases hof : owner = from_
        · subst hof
          by_cases hauth : Erc721.authorized s caller owner id
          · simp only [applyOp, Erc721.transfer_from, hown, if_neg h0,
              ne_eq, not_true_eq_false, if_false, if_pos hauth, commit]
            exact inv_transferState hinv dst hown
          · simp only [applyOp, Erc721.transfer_from, hown, if_neg h0,
              ne_eq, not_true_eq_false, if_false, if_neg hauth, commit]
            exact hinv
        · simp only [applyOp, Erc721.transfer_from, hown, if_neg h0, ne_eq, hof,
            not_false_eq_true, if_true, commit]
          exact hinv
  | safeTransferFrom caller from_ dst id recv =>
    cases hown : s.owners id with
    | none =>
      simp only [applyOp, Erc721.safe_transfer_from, Erc721.transfer_from, hown, commit]
      exact hinv
    | some owner =>
      by_cases h0 : dst = 0
      · simp only [applyOp, Erc721.safe_transfer_from, Erc721.transfer_from,
          hown, h0, if_pos rfl, commit]
        exact hinv
      · by_cases hof : owner = from_
        · subst hof
          by_cases hauth : Erc721.authorized s caller owner id
          · cases recv <;>
              simp only [applyOp, Erc721.safe_transfer_from, Erc721.transfer_from,
                hown, if_neg h0, ne_eq, not_true_eq_false, if_false,
                if_pos hauth, commit] <;>
              first
                | exact inv_transferState hinv dst hown
                | exact hinv
          · simp only [applyOp, Erc721.safe_transfer_from, Erc721.transfer_from,
              hown, if_neg h0, ne_eq, not_true_eq_false, if_false,
              if_neg hauth, commit]
            exact hinv
        · simp only [applyOp, Erc721.safe_transfer_from, Erc721.transfer_from,
            hown, if_neg h0, ne_eq, hof, not_false_eq_true, if_true, commit]
          exact hinv
  | approve caller approved id =>
    cases hown : s.owners id with
    | none =>
      simp only [applyOp, Erc721.approve, hown, commit]
      exact hinv
    | some owner =>
      by_cases hauth : (caller = owner || s.operatorApprovals owner caller : Bool)
      · simp only [applyOp, Erc721.approve, hown, if_pos hauth, commit]
        exact inv_congr hinv rfl rfl rfl
      · simp only [applyOp, Erc721.approve, hown, if_neg hauth, commit]
        exact hinv
  | setApprovalForAll caller op appr =>
    by_cases hco : op = caller
    · simp only [applyOp, Erc721.set_approval_for_all, hco, if_pos rfl, commit]
      exact hinv
    · simp only [applyOp, Erc721.set_approval_for_all, if_neg hco, commit]
      exact inv_congr hinv rfl rfl rfl

theorem inv_applyOps {s : State} (ops : List Op) (hinv : Inv s) :
    Inv (applyOps ops s) := by
  induction ops generalizing s with
  | nil => exact hinv
  | cons o rest ih => exact ih (inv_applyOp hinv o)

theorem inv_reachFrom {s t : State} (hinv : Inv s) (h : ReachFrom s t) : Inv t := by
  obtain ⟨ops, hops⟩ := h
  rw [← hops]
  exact inv_applyOps ops hinv

theorem inv_reach {s : State} (h : Reach s) : Inv s :=
  inv_reachFrom inv_init h

theorem applyOps_append (l1 l2 : List Op) (s : State) :
    applyOps (l1 ++ l2) s = applyOps l2 (applyOps l1 s) := by
  induction l1 generalizing s with
  | nil => rfl
  | cons o rest ih =>
    show applyOps (rest ++ l2) (applyOp o s) = _
    exact ih (applyOp o s)

theorem reach_trans {s t : State} (h1 : Reach s) (h2 : ReachFrom s t) : Reach t := by
  obtain ⟨l1, hl1⟩ := h1
  obtain ⟨l2, hl2⟩ := h2
  exact ⟨l1 ++ l2, by rw [applyOps_append, hl1, hl2]⟩

theorem applyOp_nextTokenId (o : Op) (s : State) :
    s.nextTokenId ≤ (applyOp o s).nextTokenId := by
  cases o with
  | mint dst =>
    by_cases h0 : dst = 0 <;>
      simp only [applyOp, Erc721.mint, h0, if_pos, if_neg, ite_true, ite_false,
        Except.map, commit, Erc721.mintState] <;>
      omega
  | safeMint dst recv =>
    by_cases h0 : dst = 0
    · simp only [applyOp, Erc721.safe_mint, Erc721.mint, h0, if_pos rfl,
        ite_true, commit]
      exact Nat.le_refl _
    · cases recv <;>
        simp only [applyOp, Erc721.safe_mint, Erc721.mint, if_neg h0, commit,
          Erc721.mintState] <;>
        omega
  | burn caller id =>
    cases hown : s.owners id with
    | none => simp only [applyOp, Erc721.burn, hown, commit]; exact Nat.le_refl _
    | some owner =>
      by_cases hauth : Erc721.authorized s caller owner id <;>
        simp only [applyOp, Erc721.burn, hown, if_pos, if_neg, hauth, ite_true,
          ite_false, commit, Erc721.burnState] <;>
        exact Nat.le_refl _
  | transferFrom caller from_ dst id =>
    cases hown : s.owners id with
    | none =>
      simp only [applyOp, Erc721.transfer_from, hown, commit]
      exact Nat.le_refl _
    | some owner =>
      simp only [applyOp, Erc721.transfer_from, hown]
      by_cases h0 : dst = 0
      · simp only [h0, if_pos rfl, commit]
        exact Nat.le_refl _
      · rw [if_neg h0]
        by_cases hof : owner ≠ from_
        · rw [if_pos hof]
          exact Nat.le_refl _
        · rw [if_neg hof]
          by_cases hauth : Erc721.authorized s caller owner id
          · rw [if_pos hauth]
            exact Nat.le_refl _
          · rw [if_neg hauth]
            exact Nat.le_refl _
  | safeTransferFrom caller from_ dst id recv =>
    cases hown : s.owners id with
    | none =>
      simp only [applyOp, Erc721.safe_transfer_from, Erc721.transfer_from, hown, commit]
      exact Nat.le_refl _
    | some owner =>
      simp only [applyOp, Erc721.safe_transfer_from, Erc721.transfer_from, hown]
      by_cases h0 : dst = 0
      · simp only [h0, if_pos rfl, commit]
        exact Nat.le_refl _
      · rw [if_neg h0]
        by_cases hof : owner ≠ from_
        · rw [if_pos hof]
          exact Nat.le_refl _
        · rw [if_neg hof]
          by_cases hauth : Erc721.authorized s caller owner id
          · rw [if_pos hauth]
            cases recv <;> exact Nat.le_refl _
          · rw [if_neg hauth]
            exact Nat.le_refl _
  | approve caller approved id =>
    cases hown : s.owners id with
    | none =>
      simp only [applyOp, Erc721.approve, hown, commit]
      exact Nat.le_refl _
    | some owner =>
      by_cases hauth : (caller = owner || s.operatorApprovals owner caller : Bool) <;>
        simp only [applyOp, Erc721.approve, hown, if_pos, if_neg, hauth,
          ite_true, ite_false, commit] <;>
        exact Nat.le_refl _
  | setApprovalForAll caller op appr =>
    by_cases hco : op = caller <;>
      simp only [applyOp, Erc721.set_approval_for_all, hco, if_pos, if_neg,
        ite_true, ite_false, commit] <;>
      exact Nat.le_refl _

theorem applyOps_nextTokenId (ops : List Op) (s : State) :
    s.nextTokenId ≤ (applyOps ops s).nextTokenId := by
  induction ops generalizing s with
  | nil => exact Nat.le_refl _
  | cons o rest ih =>
    exact Nat.le_trans (applyOp_nextTokenId o s) (ih (applyOp o s))

theorem reachFrom_nextTokenId {s t : State} (h : ReachFrom s t) :
    s.nextTokenId ≤ t.nextTokenId := by
  obtain ⟨ops, hops⟩ := h
  rw [← hops]
  exact applyOps_nextTokenId ops s

theorem fiber_disjoint (s : State) {a b : Nat} (hab : a ≠ b) :
    Disjoint (fiber s a) (fiber s b) := by
  rw [Finset.disjoint_left]
  intro t ha hb2
  have h1 := (mem_fiber.mp ha).2
  have h2 := (mem_fiber.mp hb2).2
  rw [h1] at h2
  exact hab (Option.some.inj h2)

theorem sum_balances_eq_card {s : State} (hinv : Inv s) (S : Finset Nat)
    (hcov : ∀ t a, s.owners t = some a → a ∈ S) :
    ∑ a ∈ S, s.balances a = (existingTokens s).card := by
  have h1 : ∑ a ∈ S, s.balances a = ∑ a ∈ S, (fiber s a).card :=
    Finset.sum_congr rfl (fun a _ => hinv.2 a)
  rw [h1, ← Finset.card_biUnion (fun x _ y _ hxy => fiber_disjoint s hxy)]
  congr 1
  ext t
  simp only [Finset.mem_biUnion, mem_existingTokens, mem_fiber]
  constructor
  · rintro ⟨a, _, hlt, hw⟩
    refine ⟨hlt, ?_⟩
    rw [hw]
    rfl
  · rintro ⟨hlt, hsome⟩
    obtain ⟨a, ha⟩ := Option.isSome_iff_exists.mp hsome
    exact ⟨a, hcov t a ha, hlt, ha⟩

theorem authorized_iff (s : State) (caller owner id : Nat) :
    Erc721.authorized s caller owner id = true ↔
      (caller = owner ∨ s.tokenApprovals id = caller ∨
        s.operatorApprovals owner caller = true) := by
  simp [Erc721.authorized, Bool.or_eq_true, decide_eq_true_eq, or_assoc]

theorem mint_ok_inv {s : State} {dst : Nat} {s1 : State} {id : Nat}
    (h : Erc721.mint s dst = .ok (s1, id)) :
    dst ≠ 0 ∧ s1 = Erc721.mintState s dst ∧ id = s.nextTokenId := by
  unfold Erc721.mint at h
  by_cases h0 : dst = 0
  · rw [if_pos h0] at h
    exact absurd h (by simp)
  · rw [if_neg h0] at h
    have h2 := Except.ok.inj h
    rw [Prod.mk.injEq] at h2
    exact ⟨h0, h2.1.symm, h2.2.symm⟩

theorem transfer_from_ok_inv {s : State} {caller from_ dst id : Nat} {s1 : State}
    (h : Erc721.transfer_from s caller from_ dst id = .ok s1) :
    s1 = Erc721.transferState s from_ dst id ∧
    s.owners id = some from_ ∧ dst ≠ 0 ∧
    Erc721.authorized s caller from_ id = true := by
  cases hown : s.owners id with
  | none =>
    simp only [Erc721.transfer_from, hown] at h
    exact absurd h (by simp)
  | some owner =>
    simp only [Erc721.transfer_from, hown] at h
    by_cases h0 : dst = 0
    · rw [if_pos h0] at h
      exact absurd h (by simp)
    · rw [if_neg h0] at h
      by_cases hof : owner ≠ from_
      · rw [if_pos hof] at h
        exact absurd h (by simp)
      · rw [if_neg hof] at h
        push_neg at hof
        subst hof
        by_cases hauth : Erc721.authorized s caller owner id
        · rw [if_pos hauth] at h
          exact ⟨(Except.ok.inj h).symm, rfl, h0, hauth⟩
        · rw [if_neg hauth] at h
          exact absurd h (by simp)

theorem safe_transfer_from_ok_inv {s : State} {caller from_ dst id : Nat}
    {recv : ReceiverOutcome} {s1 : State}
    (h : Erc721.safe_transfer_from s caller from_ dst id recv = .ok s1) :
    Erc721.transfer_from s caller from_ dst id = .ok s1 := by
  unfold Erc721.safe_transfer_from at h
  cases htf : Erc721.transfer_from s caller from_ dst id with
  | error e =>
    rw [htf] at h
    exact absurd h (by simp)
  | ok s2 =>
    rw [htf] at h
    cases recv <;> simp at h <;> rw [h]

/-! ## The claims -/

/-- C1: for every sequence of mint, burn and transfer operations starting
from the initial ledger state, after every operation the sum of all
owners' balances equals the number of currently-existing tokens (taking
any finite set of addresses covering all owners), and every existing
token id maps to exactly one owner. -/
theorem ledger_invariant (s : State) (h : Reach s) :
    (∀ S : Finset Nat, (∀ t a, s.owners t = some a → a ∈ S) →
      ∑ a ∈ S, s.balances a = (existingTokens s).card) ∧
    (∀ t, (s.owners t).isSome → t ∈ existingTokens s) ∧
    (∀ t a b, s.owners t = some a → s.owners t = some b → a = b) := by
  have hinv := inv_reach h
  refine ⟨?_, ?_, ?_⟩
  · intro S hcov
    exact sum_balances_eq_card hinv S hcov
  · intro t hsome
    obtain ⟨a, ha⟩ := Option.isSome_iff_exists.mp hsome
    exact mem_existingTokens.mpr ⟨owner_lt_next hinv ha, hsome⟩
  · intro t a b ha hb
    rw [ha] at hb
    exact Option.some.inj hb

/-- Witness for C1 at the state reached by minting tokens to addresses 5
and 6. -/
theorem ledger_invariant_witness :
    ∑ a ∈ ({5, 6} : Finset Nat), (applyOps [Op.mint 5, Op.mint 6] State.init).balances a
      = (existingTokens (applyOps [Op.mint 5, Op.mint 6] State.init)).card := by
  have h := (ledger_invariant (applyOps [Op.mint 5, Op.mint 6] State.init)
    ⟨[Op.mint 5, Op.mint 6], rfl⟩).1
  apply h
  intro t a ha
  have ha2 : (if t = 1 then some 6 else if t = 0 then some 5 else none)
      = some a := ha
  by_cases h1 : t = 1
  · rw [if_pos h1] at ha2
    have : a = 6 := (Option.some.inj ha2).symm
    subst this
    decide
  · rw [if_neg h1] at ha2
    by_cases h0 : t = 0
    · rw [if_pos h0] at ha2
      have : a = 5 := (Option.some.inj ha2).symm
      subst this
      decide
    · rw [if_neg h0] at ha2
      exact absurd ha2 (by simp)

/-- C2: for every receiver whose acceptance callback fails or returns a
wrong magic value, safe_mint returns an error and the ledger state —
ownership map, balances and the id counter — is exactly as before the
call; the `lib.rs` `safe_mint` entrypoint forwards to the ledger's
`safe_mint`. -/
theorem safe_mint_rolls_back (s : State) (dst : Nat) (recv : ReceiverOutcome)
    (h : recv = ReceiverOutcome.rejected ∨ recv = ReceiverOutcome.callFailed) :
    (∃ e, Erc721.safe_mint s dst recv = .error e) ∧
    applyOp (Op.safeMint dst recv) s = s ∧
    (∀ sender, SuperPositionNFT.safe_mint s sender dst recv =
      Erc721.safe_mint s dst recv) := by
  refine ⟨?_, ?_, fun _ => rfl⟩
  · by_cases h0 : dst = 0
    · exact ⟨.InvalidReceiver, by simp [Erc721.safe_mint, Erc721.mint, h0]⟩
    · rcases h with h | h <;> subst h
      · exact ⟨.ReceiverRejected, by simp [Erc721.safe_mint, Erc721.mint, h0]⟩
      · exact ⟨.ReceiverCallFailed, by simp [Erc721.safe_mint, Erc721.mint, h0]⟩
  · by_cases h0 : dst = 0
    · simp [applyOp, commit, Erc721.safe_mint, Erc721.mint, h0]
    · rcases h with h | h <;> subst h <;>
        simp [applyOp, commit, Erc721.safe_mint, Erc721.mint, h0]

/-- Witness for C2: a rejected safe_mint to address 5 from the initial
state errors and leaves the state untouched. -/
theorem safe_mint_rolls_back_witness :
    (∃ e, Erc721.safe_mint State.init 5 ReceiverOutcome.rejected = .error e) ∧
    applyOp (Op.safeMint 5 ReceiverOutcome.rejected) State.init = State.init ∧
    SuperPositionNFT.safe_mint State.init 9 5 ReceiverOutcome.rejected =
      Erc721.safe_mint State.init 5 ReceiverOutcome.rejected := by
  have h := safe_mint_rolls_back State.init 5 ReceiverOutcome.rejected (Or.inl rfl)
  exact ⟨h.1, h.2.1, h.2.2 9⟩

/-- C3: burn(caller, id) succeeds exactly when id exists and the caller
is the owner, the single-token-approved address, or an approved operator
of the owner; a nonexistent id gives NonexistentToken, a failed
authorization gives NotAuthorized, and any failure leaves the ledger
state unchanged. -/
theorem burn_spec (s : State) (caller id : Nat) :
    ((∃ s1, Erc721.burn s caller id = .ok s1) ↔
      (∃ owner, s.owners id = some owner ∧
        (caller = owner ∨ s.tokenApprovals id = caller ∨
          s.operatorApprovals owner caller = true))) ∧
    (s.owners id = none → Erc721.burn s caller id = .error .NonexistentToken) ∧
    (∀ owner, s.owners id = some owner →
      ¬(caller = owner ∨ s.tokenApprovals id = caller ∨
        s.operatorApprovals owner caller = true) →
      Erc721.burn s caller id = .error .NotAuthorized) ∧
    (∀ e, Erc721.burn s caller id = .error e → applyOp (Op.burn caller id) s = s) := by
  cases hown : s.owners id with
  | none =>
    refine ⟨?_, ?_, ?_, ?_⟩
    · simp [Erc721.burn, hown]
    · intro _
      simp [Erc721.burn, hown]
    · intro owner h2 _
      exact absurd h2 (by simp)
    · intro e _
      simp [applyOp, commit, Erc721.burn, hown]
  | some owner =>
    by_cases hauth : Erc721.authorized s caller owner id
    · have hA := (authorized_iff s caller owner id).mp hauth
      refine ⟨?_, ?_, ?_, ?_⟩
      · constructor
        · intro _
          exact ⟨owner, rfl, hA⟩
        · intro _
          exact ⟨Erc721.burnState s owner id, by simp [Erc721.burn, hown, hauth]⟩
      · intro h2
        exact absurd h2 (by simp)
      · intro owner2 h2 hno
        obtain rfl := Option.some.inj h2
        exact absurd hA hno
      · intro e he
        rw [show Erc721.burn s caller id = .ok (Erc721.burnState s owner id) from by
          simp [Erc721.burn, hown, hauth]] at he
        exact absurd he (by simp)
    · have hA : ¬(caller = owner ∨ s.tokenApprovals id = caller ∨
          s.operatorApprovals owner caller = true) :=
        fun h2 => hauth ((authorized_iff s caller owner id).mpr h2)
      refine ⟨?_, ?_, ?_, ?_⟩
      · constructor
        · rintro ⟨s1, h2⟩
          rw [show Erc721.burn s caller id = .error .NotAuthorized from by
            simp [Erc721.burn, hown, hauth]] at h2
          exact absurd h2 (by simp)
        · rintro ⟨owner2, h2, hA2⟩
          obtain rfl := Option.some.inj h2
          exact absurd hA2 hA
      · intro h2
        exact absurd h2 (by simp)
      · intro owner2 h2 _
        simp [Erc721.burn, hown, hauth]
      · intro e _
        simp [applyOp, commit, Erc721.burn, hown, hauth]

/-- Witness for C3: in `sEx`, the owner (address 5) can burn token 0; a
stranger burning the nonexistent token 1 gets NonexistentToken; a
stranger (address 7) burning token 0 gets NotAuthorized. -/
theorem burn_spec_witness :
    (∃ s1, Erc721.burn sEx 5 0 = .ok s1) ∧
    Erc721.burn sEx 7 1 = .error .NonexistentToken ∧
    Erc721.burn sEx 7 0 = .error .NotAuthorized :=
  ⟨(burn_spec sEx 5 0).1.mpr ⟨5, rfl, Or.inl rfl⟩,
   (burn_spec sEx 7 1).2.1 rfl,
   (burn_spec sEx 7 0).2.2.1 5 rfl (by decide)⟩

/-- C4: every mint variant — the ledger's mint, mint_to and safe_mint,
and the `lib.rs` mint_to and safe_mint entrypoints — fails with
InvalidReceiver on the zero address, with no state change. -/
theorem mint_zero_address (s : State) (recv : ReceiverOutcome) (sender : Nat) :
    Erc721.mint s 0 = .error .InvalidReceiver ∧
    Erc721.mint_to s 0 = .error .InvalidReceiver ∧
    Erc721.safe_mint s 0 recv = .error .InvalidReceiver ∧
    SuperPositionNFT.mint_to s sender 0 = .error .InvalidReceiver ∧
    SuperPositionNFT.safe_mint s sender 0 recv = .error .InvalidReceiver ∧
    applyOp (Op.mint 0) s = s ∧
    applyOp (Op.safeMint 0 recv) s = s :=
  ⟨rfl, rfl, rfl, rfl, rfl, rfl, rfl⟩

/-- C5: a successful transfer_from or safe_transfer_from of a token
clears its single-token approval: get_approved afterwards returns the
zero address. -/
theorem transfer_clears_approval (s : State) (caller from_ dst id : Nat)
    (s1 : State) (recv : ReceiverOutcome) :
    (Erc721.transfer_from s caller from_ dst id = .ok s1 →
      Erc721.get_approved s1 id = 0) ∧
    (Erc721.safe_transfer_from s caller from_ dst id recv = .ok s1 →
      Erc721.get_approved s1 id = 0) := by
  constructor
  · intro h
    obtain ⟨h1, _, _, _⟩ := transfer_from_ok_inv h
    subst h1
    show updAppr s.tokenApprovals id 0 id = 0
    simp [updAppr]
  · intro h
    obtain ⟨h1, _, _, _⟩ := transfer_from_ok_inv (safe_transfer_from_ok_inv h)
    subst h1
    show updAppr s.tokenApprovals id 0 id = 0
    simp [updAppr]

/-- Witness for C5: transferring token 0 of `sEx` from its owner 5 to 6
leaves get_approved at the zero address. -/
theorem transfer_clears_approval_witness :
    Erc721.get_approved (Erc721.transferState sEx 5 6 0) 0 = 0 :=
  (transfer_clears_approval sEx 5 5 6 0 (Erc721.transferState sEx 5 6 0)
    ReceiverOutcome.accepted).1 rfl

/-- C6: a successful mint returns an id never owned in any earlier state
of the run, increases the receiver's balance by exactly one, and leaves
every other balance unchanged. -/
theorem mint_fresh_id (s0 s s1 : State) (dst id : Nat)
    (h0 : Reach s0) (hr : ReachFrom s0 s)
    (hm : Erc721.mint s dst = .ok (s1, id)) :
    s0.owners id = none ∧ s.owners id = none ∧ s1.owners id = some dst ∧
    s1.balances dst = s.balances dst + 1 ∧
    ∀ a, a ≠ dst → s1.balances a = s.balances a := by
  obtain ⟨hne0, hs1, hid⟩ := mint_ok_inv hm
  subst hs1
  subst hid
  have hinv : Inv s := inv_reach (reach_trans h0 hr)
  have hinv0 : Inv s0 := inv_reach h0
  have hmono := reachFrom_nextTokenId hr
  refine ⟨?_, ?_, ?_, ?_, ?_⟩
  · exact hinv0.1 _ (by omega)
  · exact hinv.1 _ (Nat.le_refl _)
  · show updOwner s.owners s.nextTokenId (some dst) s.nextTokenId = some dst
    simp [updOwner]
  · show updBal s.balances dst (s.balances dst + 1) dst = _
    simp [updBal]
  · intro a ha
    show updBal s.balances dst (s.balances dst + 1) a = _
    simp [updBal, ha]

/-- Witness for C6: minting to address 5 from the initial state yields
fresh id 0, bumps balance 5 and leaves balance 7 alone. -/
theorem mint_fresh_id_witness :
    State.init.owners 0 = none ∧
    (applyOp (Op.mint 5) State.init).owners 0 = some 5 ∧
    (applyOp (Op.mint 5) State.init).balances 5 = State.init.balances 5 + 1 ∧
    (applyOp (Op.mint 5) State.init).balances 7 = State.init.balances 7 := by
  have h := mint_fresh_id State.init State.init (applyOp (Op.mint 5) State.init) 5 0
    ⟨[], rfl⟩ ⟨[], rfl⟩ rfl
  exact ⟨h.1, h.2.2.1, h.2.2.2.1, h.2.2.2.2 7 (by decide)⟩

/-- C7: when `owner` owns `id` and A, B are distinct non-zero addresses,
approve(owner, A, id) followed by transfer_from(A, owner, B, id)
succeeds, clears get_approved(id) and makes B the owner of id. -/
theorem approve_transfer_roundtrip (s : State) (owner A B id : Nat)
    (hown : s.owners id = some owner) (hA : A ≠ 0) (hB : B ≠ 0) (hAB : A ≠ B) :
    ∃ s1 s2, Erc721.approve s owner A id = .ok s1 ∧
      Erc721.transfer_from s1 A owner B id = .ok s2 ∧
      Erc721.get_approved s2 id = 0 ∧ Erc721.owner_of s2 id = .ok B := by
  refine ⟨{ s with tokenApprovals := updAppr s.tokenApprovals id A },
    Erc721.transferState { s with tokenApprovals := updAppr s.tokenApprovals id A }
      owner B id, ?_, ?_, ?_, ?_⟩
  · simp [Erc721.approve, hown]
  · have h1 : Erc721.authorized
        { s with tokenApprovals := updAppr s.tokenApprovals id A } A owner id
        = true := by
      simp [Erc721.authorized, updAppr]
    simp only [Erc721.transfer_from]
    rw [show ({ s with tokenApprovals := updAppr s.tokenApprovals id A } :
      State).owners id = some owner from hown]
    simp [hB, h1]
  · show updAppr (updAppr s.tokenApprovals id A) id 0 id = 0
    simp [updAppr]
  · show Erc721.owner_of _ id = .ok B
    simp [Erc721.owner_of, Erc721.transferState, updOwner]

/-- Witness for C7 in `sEx`: owner 5 approves 6, then 6 moves token 0 to
address 7. -/
theorem approve_transfer_roundtrip_witness :
    ∃ s1 s2, Erc721.approve sEx 5 6 0 = .ok s1 ∧
      Erc721.transfer_from s1 6 5 7 0 = .ok s2 ∧
      Erc721.get_approved s2 0 = 0 ∧ Erc721.owner_of s2 0 = .ok 7 :=
  approve_transfer_roundtrip sEx 5 6 7 0 rfl (by decide) (by decide) (by decide)

/-- C8: set_approval_for_all rejects a self-approval with
InvalidOperator — and fails with InvalidOperator exactly when the
operator equals the caller — leaving the operator-approval state
unchanged. -/
theorem set_approval_self (s : State) (caller op : Nat) (appr : Bool) :
    Erc721.set_approval_for_all s caller caller appr = .error .InvalidOperator ∧
    (Erc721.set_approval_for_all s caller op appr = .error .InvalidOperator ↔
      op = caller) ∧
    applyOp (Op.setApprovalForAll caller caller appr) s = s := by
  refine ⟨?_, ?_, ?_⟩
  · simp [Erc721.set_approval_for_all]
  · constructor
    · intro h
      by_cases hco : op = caller
      · exact hco
      · rw [show Erc721.set_approval_for_all s caller op appr =
            .ok { s with operatorApprovals := updOp s.operatorApprovals caller op appr }
          from by simp [Erc721.set_approval_for_all, hco]] at h
        exact absurd h (by simp)
    · intro h
      subst h
      simp [Erc721.set_approval_for_all]
  · simp [applyOp, commit, Erc721.set_approval_for_all]

/-- Witness for C8 at caller 4. -/
theorem set_approval_self_witness :
    Erc721.set_approval_for_all State.init 4 4 true = .error .InvalidOperator :=
  (set_approval_self State.init 4 4 true).1

/-- C9: the `lib.rs` `mint` entrypoint takes no recipient argument: it
mints to msg::sender(), so on success the new token (id = the pre-call
counter) is owned by the caller, and the call coincides with the
ledger's mint_to at the sender. -/
theorem mint_owner_is_sender (s : State) (sender : Nat) (s1 : State)
    (h : SuperPositionNFT.mint s sender = .ok s1) :
    s1.owners s.nextTokenId = some sender ∧
    Erc721.owner_of s1 s.nextTokenId = .ok sender ∧
    SuperPositionNFT.mint s sender = Erc721.mint_to s sender := by
  have hs1 : s1 = Erc721.mintState s sender := by
    unfold SuperPositionNFT.mint at h
    by_cases h0 : sender = 0
    · rw [show Erc721.mint s sender = .error .InvalidReceiver from by
        simp [Erc721.mint, h0]] at h
      exact absurd h (by simp [Except.map])
    · rw [show Erc721.mint s sender =
          .ok (Erc721.mintState s sender, s.nextTokenId) from by
        simp [Erc721.mint, h0]] at h
      exact (Except.ok.inj h).symm
  subst hs1
  refine ⟨?_, ?_, rfl⟩
  · show updOwner s.owners s.nextTokenId (some sender) s.nextTokenId = some sender
    simp [updOwner]
  · show Erc721.owner_of (Erc721.mintState s sender) s.nextTokenId = .ok sender
    have : (Erc721.mintState s sender).owners s.nextTokenId = some sender := by
      show updOwner s.owners s.nextTokenId (some sender) s.nextTokenId = some sender
      simp [updOwner]
    simp [Erc721.owner_of, this]

/-- Witness for C9: sender 5 minting from the initial state owns token 0. -/
theorem mint_owner_is_sender_witness :
    (applyOp (Op.mint 5) State.init).owners 0 = some 5 ∧
    Erc721.owner_of (applyOp (Op.mint 5) State.init) 0 = .ok 5 := by
  have h := mint_owner_is_sender State.init 5 (applyOp (Op.mint 5) State.init) rfl
  exact ⟨h.1, h.2.1⟩

/-- C10: the `lib.rs` `mint_to` entrypoint performs no authorization
check: its result does not depend on the caller, it forwards directly to
the ledger's mint, and any caller mints into any non-zero address's
balance. -/
theorem mint_to_no_auth (s : State) (sender1 sender2 dst : Nat) :
    SuperPositionNFT.mint_to s sender1 dst = SuperPositionNFT.mint_to s sender2 dst ∧
    SuperPositionNFT.mint_to s sender1 dst = Erc721.mint_to s dst ∧
    (dst ≠ 0 → ∃ s1, SuperPositionNFT.mint_to s sender1 dst = .ok s1 ∧
      s1.owners s.nextTokenId = some dst ∧
      s1.balances dst = s.balances dst + 1) := by
  refine ⟨rfl, rfl, ?_⟩
  intro h0
  refine ⟨Erc721.mintState s dst, ?_, ?_, ?_⟩
  · simp [SuperPositionNFT.mint_to, Erc721.mint, h0, Except.map]
  · show updOwner s.owners s.nextTokenId (some dst) s.nextTokenId = some dst
    simp [updOwner]
  · show updBal s.balances dst (s.balances dst + 1) dst = _
    simp [updBal]

/-- Witness for C10: callers 3 and 9 mint to address 5 identically. -/
theorem mint_to_no_auth_witness :
    SuperPositionNFT.mint_to State.init 3 5 = SuperPositionNFT.mint_to State.init 9 5 ∧
    (∃ s1, SuperPositionNFT.mint_to State.init 3 5 = .ok s1 ∧
      s1.owners State.init.nextTokenId = some 5 ∧
      s1.balances 5 = State.init.balances 5 + 1) := by
  have h := mint_to_no_auth State.init 3 9 5
  exact ⟨h.1, h.2.2 (by decide)⟩

end NFT
